import Mathlib

/-! Elektroid `utils.c`: a shallow embedding and its checked properties.

Conventions of the embedding.

* A C string is the list of its characters before the terminating NUL, so
  `strlen` is the length of the list and index `strlen` holds NUL.
* A pointer into a string is an offset from its first character, an `Int`,
  because `get_ext` computes offsets below zero; `NULL` is `none`.
* Memory outside an object is not known to the program.  Where the source reads
  it, the byte found there is a parameter `oob` of the model and every theorem
  holds whichever bytes `oob` supplies.
* Unsigned 32-bit values (`guint`) are `Nat`, reduced modulo `2 ^ 32` where the
  source can overflow; `gint` values are `Int`.
* The process-wide `debug_level` is an explicit first argument.
* Loops are recursive functions on a fuel argument; each caller passes a fuel
  that the loop cannot exhaust, and the theorems state the results outright.
* What the C library answers to `fopen`, `fseek`, `ftell`, `fread` and `fwrite`
  is an argument of `load_file` and `save_file`; a model file system supplies
  those answers where a claim is about files.
* A call through a function pointer is recorded as the pointer with its
  argument; what the callee does is outside the function that calls it.
-/

namespace Elektroid

/-! ## Constants of `utils.c` and `utils.h` -/

/-- The `DEBUG_SHORT_HEX_LEN` constant of `utils.c`. -/
def DEBUG_SHORT_HEX_LEN : Nat := 64

/-- The `DEBUG_FULL_HEX_THRES` constant of `utils.c`. -/
def DEBUG_FULL_HEX_THRES : Int := 3

/-- The `KIB` constant of `utils.c`. -/
def KIB : Nat := 1024

/-- The `LABEL_MAX` constant of `utils.h`. -/
def LABEL_MAX : Nat := 128

/-- The NUL character that terminates a C string. -/
def NUL : Char := Char.ofNat 0

/-- The space character. -/
def SPACE : Char := Char.ofNat 32

/-- A `guint8`. -/
abbrev Byte := Fin 256

/-! ## The C library calls the source makes -/

/-- Reading `name[k]`: a character of the string, its terminating NUL at
`k = strlen name`, and outside the object whatever byte `oob` supplies. -/
def charAt (oob : Int → Char) (name : List Char) (k : Int) : Char :=
  if k < 0 then oob k
  else if h : k.toNat < name.length then name.get ⟨k.toNat, h⟩
  else if k.toNat = name.length then NUL
  else oob k

/-- The C string at `name + off`, for a pointer inside the string
(`0 ≤ off ≤ strlen name`). -/
def str_at (name : List Char) (off : Int) : List Char :=
  name.drop off.toNat

/-- What `snprintf (buf, size, ...)` leaves in `buf` when the untruncated output
is `s`: at most `size - 1` characters of it, followed by NUL. -/
def snprintf (size : Nat) (s : List Char) : List Char :=
  s.take (size - 1)

/-- The decimal digits of `n`, most significant first; `fuel` bounds the number
of digits produced. -/
def dec_digits : Nat → Nat → List Char → List Char
  | 0, _, acc => acc
  | fuel + 1, n, acc =>
    if n < 10 then Nat.digitChar n :: acc
    else dec_digits fuel (n / 10) (Nat.digitChar (n % 10) :: acc)

/-- The conversion `%u`: a natural number in decimal. -/
def fmt_u (n : Nat) : List Char :=
  dec_digits (n + 1) n []

/-- The conversion `%d`: a signed integer in decimal. -/
def fmt_d (v : Int) : List Char :=
  if v < 0 then '-' :: fmt_u (-v).toNat else fmt_u v.toNat

/-- The `int` that a 32-bit unsigned value is read as by `%d`. -/
def as_int32 (n : Nat) : Int :=
  if n % 2 ^ 32 < 2 ^ 31 then ((n % 2 ^ 32 : Nat) : Int)
  else ((n % 2 ^ 32 : Nat) : Int) - 2 ^ 32

/-- The conversion `%02x` of a byte: two lower-case hexadecimal digits. -/
def fmt_02x (b : Byte) : List Char :=
  [Nat.digitChar (b.val / 16), Nat.digitChar (b.val % 16)]

/-- The conversion `%.2f` of the double `num / den` in the C locale.  The source
only divides a 32-bit count by a power of two, which is exact in a double, so
the printed text is the two-decimal rounding of the rational `num / den`, a tie
going to the even neighbour as the default rounding mode has it. -/
def fmt_2f (num den : Nat) : List Char :=
  let q := 100 * num / den
  let r := 100 * num % den
  let h := if 2 * r > den ∨ (2 * r = den ∧ q % 2 = 1) then q + 1 else q
  fmt_u (h / 100) ++ '.' :: [Nat.digitChar (h % 100 / 10), Nat.digitChar (h % 10)]

/-! ## `get_max_message_length` and `debug_get_hex_data` -/

/-- The function `get_max_message_length`; it consults the global
`debug_level`. -/
def get_max_message_length (debug_level : Int) (msg_len : Nat) : Nat :=
  if debug_level ≥ DEBUG_FULL_HEX_THRES then msg_len
  else if msg_len > DEBUG_SHORT_HEX_LEN then DEBUG_SHORT_HEX_LEN else msg_len

/-- What `debug_get_hex_data` produces: the number of bytes it asked `malloc`
for, and the text its `sprintf` calls wrote from the start of that buffer (the
terminating NUL not counted). -/
structure HexDump where
  size : Nat
  str : List Char

/-- The `while` loop of `debug_get_hex_data`: `i` counts the bytes formatted so
far, `str` is the text written so far, and `b` is `data + i`. -/
def hex_loop (debug_level : Int) (oob : Byte) (data : List Byte) :
    Nat → Nat → List Char → List Char
  | 0, _, str => str
  | fuel + 1, i, str =>
    if i < get_max_message_length debug_level data.length then
      hex_loop debug_level oob data fuel (i + 1)
        (str ++ SPACE :: fmt_02x (data.getD i oob))
    else str

/-- The function `debug_get_hex_data (level, data, len)` with `len` the length
of `data`.  `oob` is the byte a read past the end of `data` finds. -/
def debug_get_hex_data (debug_level : Int) (oob : Byte) (level : Int)
    (data : List Byte) : HexDump :=
  let len := data.length
  let bytes_shown :=
    if level ≥ DEBUG_FULL_HEX_THRES then len
    else if len > DEBUG_SHORT_HEX_LEN then DEBUG_SHORT_HEX_LEN else len
  let extra :=
    if level ≥ DEBUG_FULL_HEX_THRES then 0
    else if len > DEBUG_SHORT_HEX_LEN then 3 else 0
  let size := (bytes_shown * 3 + extra) % 2 ^ 32
  let first := fmt_02x (data.getD 0 oob)
  let body := hex_loop debug_level oob data (get_max_message_length debug_level len) 1 first
  let str :=
    if level < DEBUG_FULL_HEX_THRES ∧ len > DEBUG_SHORT_HEX_LEN then body ++ ['.', '.', '.']
    else body
  { size := size, str := str }

/-- The function `debug_get_hex_msg`: the dump of a byte array at the global
`debug_level`. -/
def debug_get_hex_msg (debug_level : Int) (oob : Byte) (msg : List Byte) : HexDump :=
  debug_get_hex_data debug_level oob debug_level msg

/-- The bytes `bs` as two-digit hexadecimal groups separated by single spaces. -/
def hex_groups (bs : List Byte) : List Char :=
  List.intercalate [SPACE] (bs.map fmt_02x)

/-- The text the loop of `debug_get_hex_data` appends for the bytes `bs`: each
byte as a space followed by its two digits. -/
def hex_rest : List Byte → List Char
  | [] => []
  | b :: bs => SPACE :: fmt_02x b ++ hex_rest bs

/-! ## `chain_path` -/

/-- The function `chain_path`.  `PATH_MAX` comes from the system headers and is
a parameter here. -/
def chain_path (PATH_MAX : Nat) (parent child : List Char) : List Char :=
  if parent = ['/'] then snprintf PATH_MAX ('/' :: child)
  else snprintf PATH_MAX (parent ++ '/' :: child)

/-! ## `remove_ext` -/

/-- The `while` loop of `remove_ext`: `i` is the offset of `dot`. -/
def remove_ext_loop (name : List Char) : Nat → Nat → Nat
  | 0, i => i
  | fuel + 1, i =>
    if name.getD i NUL ≠ '.' ∧ i > 0 then remove_ext_loop name fuel (i - 1) else i

/-- The function `remove_ext`: the string the buffer holds once NUL has been
stored at `dot`. -/
def remove_ext (name : List Char) : List Char :=
  let namelen := name.length
  let i := remove_ext_loop name namelen namelen
  name.take i

/-! ## `get_ext` -/

/-- The `while` loop of `get_ext`: `i` is the offset of `ext`; the condition
reads `name[i - 1]` before it tests `i > 0`. -/
def get_ext_loop (oob : Int → Char) (name : List Char) : Nat → Int → Int
  | 0, i => i
  | fuel + 1, i =>
    if charAt oob name (i - 1) ≠ '.' ∧ i > 0 then get_ext_loop oob name fuel (i - 1)
    else i

/-- The function `get_ext`: the offset of the returned pointer from `name`, or
`none` for `NULL`. -/
def get_ext (oob : Int → Char) (name : List Char) : Option Int :=
  let namelen : Int := (name.length : Int) - 1
  let i := get_ext_loop oob name name.length namelen
  if i = 0 ∧ charAt oob name 0 ≠ '.' then none else some i

/-! ## `get_human_size` -/

/-- The function `get_human_size`. -/
def get_human_size (size : Nat) (with_space : Bool) : List Char :=
  let space : List Char := if with_space then [SPACE] else []
  if size < KIB then
    snprintf LABEL_MAX (fmt_d (as_int32 size) ++ space ++ ['B'])
  else if size < KIB * KIB then
    snprintf LABEL_MAX (fmt_2f size KIB ++ space ++ ['K', 'i', 'B'])
  else if size < KIB * KIB * KIB then
    snprintf LABEL_MAX (fmt_2f size (KIB * KIB) ++ space ++ ['M', 'i', 'B'])
  else
    snprintf LABEL_MAX (fmt_2f size (KIB * KIB * KIB) ++ space ++ ['G', 'i', 'B'])

/-- The value a string of decimal digits denotes. -/
def dec_value (s : List Char) : Nat :=
  s.foldl (fun acc c => acc * 10 + (c.toNat - 48)) 0

/-- What stands between the number and the unit: one space when the flag is
set, nothing otherwise. -/
def unit_gap (with_space : Bool) : List Char :=
  if with_space then [SPACE] else []

/-- A non-empty text made of decimal digits and decimal points only; in
particular it holds no space. -/
def number_text (s : List Char) : Prop :=
  s ≠ [] ∧ ∀ c ∈ s, c.isDigit = true ∨ c = '.'

instance : DecidablePred number_text := fun s => by
  unfold number_text
  exact inferInstance

/-- The divisor of the unit that the range of `n` selects, for `n` from 1024 on:
1024 below 1024², 1024² below 1024³, and 1024³ otherwise. -/
def unit_divisor (n : Nat) : Nat :=
  if n < 1024 ^ 2 then 1024 else if n < 1024 ^ 3 then 1024 ^ 2 else 1024 ^ 3

/-- The name of the unit that the range of `n` selects, for `n` from 1024 on. -/
def unit_name (n : Nat) : List Char :=
  if n < 1024 ^ 2 then ['K', 'i', 'B']
  else if n < 1024 ^ 3 then ['M', 'i', 'B'] else ['G', 'i', 'B']

/-- The number of hundredths that the decimal text `ip.d1d2` denotes. -/
def hundredths (ip : List Char) (d1 d2 : Char) : Nat :=
  dec_value ip * 100 + (d1.toNat - 48) * 10 + (d2.toNat - 48)

/-- The integer that an optional minus sign followed by decimal digits denotes. -/
def int_value : List Char → Int
  | '-' :: s => - (dec_value s : Int)
  | s => (dec_value s : Int)

/-! ## `struct item`, `get_item_name` and `get_item_index` -/

/-- The enumerator `ELEKTROID_NONE` of `enum item_type`. -/
def ELEKTROID_NONE : Int := 0

/-- The enumerator `ELEKTROID_FILE` of `enum item_type`, the character F. -/
def ELEKTROID_FILE : Int := 70

/-- The enumerator `ELEKTROID_DIR` of `enum item_type`, the character D. -/
def ELEKTROID_DIR : Int := 68

/-- The record `struct item`; `index` is a `gint32` and `type` holds an
`enum item_type`. -/
structure item where
  name : List Char
  size : Nat
  index : Int
  type : Int

/-- The function `get_item_name`: a copy of the name. -/
def get_item_name (it : item) : List Char :=
  it.name

/-- The function `get_item_index`. -/
def get_item_index (it : item) : List Char :=
  if it.type = ELEKTROID_DIR then get_item_name it
  else snprintf LABEL_MAX (fmt_d it.index)

/-! ## `struct item_iterator` and `free_item_iterator` -/

/-- The record `struct item_iterator`.  `Fn` is the type of function pointers,
`none` being the null pointer, and `D` the type of the opaque state. -/
structure item_iterator (Fn D : Type) where
  next : Option Fn
  free : Option Fn
  copy : Option Fn
  data : D
  item : item

/-- The function `free_item_iterator`: the iterator as the body leaves it (the
body stores nothing into it) and the calls the body makes, in order, each a
function pointer with the argument passed to it. -/
def free_item_iterator {Fn D : Type} (iter : item_iterator Fn D) :
    item_iterator Fn D × List (Fn × D) :=
  match iter.free with
  | some f => (iter, [(f, iter.data)])
  | none => (iter, [])

/-! ## `load_file` and `save_file` -/

/-- The error number `EIO`. -/
def EIO : Int := 5

/-- The error number `ENOENT`. -/
def ENOENT : Int := 2

/-- What the C library answers on a stream that `fopen (path, "rb")` opened:
`fseek_errno` is `some e` when `fseek` fails and leaves `errno = e`; `ftell` is
the size `ftell` reports; `fread` is the bytes `fread` delivers; `errno` is the
value of `errno` once `fread` has returned. -/
structure OpenFile where
  fseek_errno : Option Int
  ftell : Int
  fread : List Byte
  errno : Int

/-- The call `g_byte_array_set_size (array, n)`: the array keeps its first bytes
and has length `n`; bytes it gains hold whatever `junk` was in memory. -/
def g_byte_array_set_size (junk : Byte) (array : List Byte) (n : Nat) : List Byte :=
  (array ++ List.replicate (n - array.length) junk).take n

/-- The function `load_file`: its status and the byte array afterwards.  `file`
is `Except.error e` when `fopen` fails with `errno = e`.  The length of a
`GByteArray` is a `guint`, so `g_byte_array_set_size` takes the size modulo
`2 ^ 32`.  The array afterwards is what lies within that length; an `OpenFile`
whose `fread` delivers more bytes than the array holds describes a store past
the end of the array, which `load_file_overruns` tells apart. -/
def load_file (junk : Byte) (file : Except Int OpenFile) (array : List Byte) :
    Int × List Byte :=
  match file with
  | Except.error errno => (- errno, array)
  | Except.ok f =>
    match f.fseek_errno with
    | some errno => (- errno, array)
    | none =>
      let size := f.ftell
      let array1 := g_byte_array_set_size junk array (size % 2 ^ 32).toNat
      let array2 := (f.fread ++ array1.drop f.fread.length).take array1.length
      if (f.fread.length : Int) = size then (0, array2) else (- f.errno, array2)

/-- Whether the `fread` call of `load_file` stores past the end of the array:
the array has the length `size % 2 ^ 32` that `g_byte_array_set_size` gave it,
and `fread` stores the bytes it delivers from the start of the array. -/
def load_file_overruns (f : OpenFile) : Bool :=
  decide ((f.ftell % 2 ^ 32).toNat < f.fread.length)

/-- What the C library does on a stream that `fopen (path, "w")` opened:
`fwrite` is the count that `fwrite` returns, and `stored` is the number of bytes
that the file holds once `fclose` has returned.  The source ignores the result
of `fclose`, so `stored` can be less than `fwrite`. -/
structure WriteStream where
  fwrite : Nat
  stored : Nat

/-- The function `save_file`: its status and the contents of the file
afterwards, `none` when the file was not opened.  `file` is `Except.error e`
when `fopen (path, "w")` fails with `errno = e`.  The status follows the count
that `fwrite` returns; the contents follow what `fclose` has stored. -/
def save_file (file : Except Int WriteStream) (array : List Byte) :
    Int × Option (List Byte) :=
  match file with
  | Except.error errno => (- errno, none)
  | Except.ok w =>
    let bytes := min w.fwrite array.length
    let contents := array.take (min w.stored bytes)
    if bytes = array.length then (0, some contents)
    else (- EIO, some contents)

/-- A model file system: the contents of each path that names a file. -/
abbrev FileSystem := List Char → Option (List Byte)

/-- The function `load_file` over the model file system, `none` when its
behaviour is undefined.  A missing file fails with `ENOENT`.  For a file with
contents `B`, `ftell` reports the size of `B` and `fread` is asked to store all
of `B` into the array, whose length is that size modulo `2 ^ 32`.  When `B` fits
the array, `fread` delivers it whole, and `e` is the value `errno` has then.
When it does not, the store runs past the end of the array: C leaves the outcome
undefined (a fault that `fread` reports as an error, or a corrupted heap), and
the result is `none`. -/
def fs_load_file (junk : Byte) (e : Int) (fs : FileSystem) (path : List Char)
    (array : List Byte) : Option (Int × List Byte) :=
  match fs path with
  | none => some (load_file junk (Except.error ENOENT) array)
  | some B =>
    let f : OpenFile :=
      { fseek_errno := none, ftell := (B.length : Int), fread := B, errno := e }
    if load_file_overruns f then none
    else some (load_file junk (Except.ok f) array)

/-- The function `save_file` over the model file system, where every path can be
opened for writing and every write is complete and stored: its status and the
file system afterwards. -/
def fs_save_file (fs : FileSystem) (path : List Char) (array : List Byte) :
    Int × FileSystem :=
  let r := save_file (Except.ok { fwrite := array.length, stored := array.length }) array
  (r.1, fun p => if p = path then r.2 else fs p)

/-! ## The reads of `get_ext` -/

/-- The `while` loop of `get_ext` with the offsets it reads: each evaluation of
the condition reads `name[i - 1]`, also the evaluation that ends the loop. -/
def get_ext_scan (oob : Int → Char) (name : List Char) : Nat → Int → Int × List Int
  | 0, i => (i, [])
  | fuel + 1, i =>
    if charAt oob name (i - 1) ≠ '.' ∧ i > 0 then
      ((get_ext_scan oob name fuel (i - 1)).1, (i - 1) :: (get_ext_scan oob name fuel (i - 1)).2)
    else (i, [i - 1])

/-- The offsets from `name` that the scan of `get_ext` reads, in order. -/
def get_ext_reads (oob : Int → Char) (name : List Char) : List Int :=
  (get_ext_scan oob name (name.length + 1) ((name.length : Int) - 1)).2

/-! ## The untruncated join -/

/-- The join of a parent and a child before any truncation: "/" and the child
when the parent is "/", otherwise the parent, "/" and the child. -/
def untruncated_join (parent child : List Char) : List Char :=
  if parent = ['/'] then '/' :: child else parent ++ '/' :: child

/-! ## Reading characters -/

theorem NUL_ne_dot : NUL ≠ '.' := by decide

theorem SPACE_ne_dot : SPACE ≠ '.' := by decide

theorem getD_ne_of_not_mem (l : List Char) (c d : Char) (j : Nat)
    (hc : c ∉ l) (hd : d ≠ c) : l.getD j d ≠ c := by
  by_cases hj : j < l.length
  · rw [List.getD_eq_getElem l d hj]
    intro h
    exact hc (h ▸ List.getElem_mem hj)
  · rw [List.getD_eq_default l d (Nat.le_of_not_lt hj)]
    exact hd

theorem charAt_nat (oob : Int → Char) (name : List Char) (n : Nat)
    (hn : n ≤ name.length) : charAt oob name (n : Int) = name.getD n NUL := by
  unfold charAt
  have h0 : ¬ ((n : Int) < 0) := by omega
  simp only [h0, if_false, Int.toNat_ofNat]
  by_cases h : n < name.length
  · simp only [h, dite_true]
    rw [List.getD_eq_getElem name NUL h]
    rfl
  · have he : n = name.length := by omega
    subst he
    rw [List.getD_eq_default name NUL (Nat.le_refl _)]
    simp

theorem getD_append_dot (pre suf : List Char) (k : Nat) :
    (pre ++ '.' :: suf).getD (pre.length + k) NUL = ('.' :: suf).getD k NUL := by
  rw [List.getD_append_right pre ('.' :: suf) NUL (pre.length + k) (by omega)]
  congr 1
  omega

/-! ## The scans of `remove_ext` and `get_ext` -/

theorem remove_ext_loop_at_dot (pre suf : List Char) (hs : '.' ∉ suf) :
    ∀ (k fuel : Nat), k ≤ fuel → k ≤ suf.length + 1 →
      remove_ext_loop (pre ++ '.' :: suf) fuel (pre.length + k) = pre.length := by
  intro k
  induction k with
  | zero =>
    intro fuel _ _
    cases fuel with
    | zero => rfl
    | succ f =>
      have hd : (pre ++ '.' :: suf).getD pre.length NUL = '.' := by
        have h := getD_append_dot pre suf 0
        rw [Nat.add_zero] at h
        rw [h]; rfl
      simp only [remove_ext_loop, Nat.add_zero, hd, ne_eq, not_true_eq_false, false_and,
        if_false]
  | succ k ih =>
    intro fuel hf hk
    cases fuel with
    | zero => omega
    | succ f =>
      have hd : (pre ++ '.' :: suf).getD (pre.length + (k + 1)) NUL ≠ '.' := by
        rw [getD_append_dot, List.getD_cons_succ]
        exact getD_ne_of_not_mem suf '.' NUL k hs NUL_ne_dot
      have hpos : pre.length + (k + 1) > 0 := by omega
      have hstep : pre.length + (k + 1) - 1 = pre.length + k := by omega
      simp only [remove_ext_loop, hd, hpos, ne_eq, not_false_eq_true, and_self, if_true, hstep]
      exact ih f (by omega) (by omega)

theorem remove_ext_loop_no_dot (name : List Char) (hs : '.' ∉ name) :
    ∀ (i fuel : Nat), i ≤ fuel → remove_ext_loop name fuel i = 0 := by
  intro i
  induction i with
  | zero =>
    intro fuel _
    cases fuel with
    | zero => rfl
    | succ f => simp [remove_ext_loop]
  | succ i ih =>
    intro fuel hf
    cases fuel with
    | zero => omega
    | succ f =>
      have hd : name.getD (i + 1) NUL ≠ '.' :=
        getD_ne_of_not_mem name '.' NUL (i + 1) hs NUL_ne_dot
      simp only [remove_ext_loop, hd, ne_eq, not_false_eq_true, gt_iff_lt, Nat.zero_lt_succ,
        and_self, if_true, Nat.add_sub_cancel]
      exact ih f (by omega)

theorem get_ext_loop_at_dot (oob : Int → Char) (pre suf : List Char) (hs : '.' ∉ suf) :
    ∀ (k fuel : Nat), k ≤ fuel → k ≤ suf.length →
      get_ext_loop oob (pre ++ '.' :: suf) fuel ((pre.length + 1 + k : Nat) : Int)
        = ((pre.length + 1 : Nat) : Int) := by
  intro k
  induction k with
  | zero =>
    intro fuel _ _
    cases fuel with
    | zero => rfl
    | succ f =>
      have hi : ((pre.length + 1 + 0 : Nat) : Int) - 1 = ((pre.length + 0 : Nat) : Int) := by
        push_cast; ring
      have hd : charAt oob (pre ++ '.' :: suf) ((pre.length + 0 : Nat) : Int) = '.' := by
        rw [charAt_nat oob _ _ (by simp), getD_append_dot]; rfl
      simp only [get_ext_loop, hi, hd, ne_eq, not_true_eq_false, false_and, if_false]
  | succ k ih =>
    intro fuel hf hk
    cases fuel with
    | zero => omega
    | succ f =>
      have hi : ((pre.length + 1 + (k + 1) : Nat) : Int) - 1
          = ((pre.length + (k + 1) : Nat) : Int) := by
        push_cast; ring
      have hd : charAt oob (pre ++ '.' :: suf) ((pre.length + (k + 1) : Nat) : Int) ≠ '.' := by
        rw [charAt_nat oob _ _ (by simp; omega), getD_append_dot, List.getD_cons_succ]
        exact getD_ne_of_not_mem suf '.' NUL k hs NUL_ne_dot
      have hpos : ((pre.length + 1 + (k + 1) : Nat) : Int) > 0 := by omega
      have hnext : ((pre.length + (k + 1) : Nat) : Int) = ((pre.length + 1 + k : Nat) : Int) := by
        push_cast; ring
      simp only [get_ext_loop, hi, hd, hpos, ne_eq, not_false_eq_true, and_self, if_true]
      rw [hnext]
      exact ih f (by omega) (by omega)

theorem get_ext_loop_no_dot (oob : Int → Char) (name : List Char) (hs : '.' ∉ name) :
    ∀ (i fuel : Nat), i ≤ fuel → i ≤ name.length →
      get_ext_loop oob name fuel (i : Int) = 0 := by
  intro i
  induction i with
  | zero =>
    intro fuel _ _
    cases fuel with
    | zero => rfl
    | succ f => simp [get_ext_loop]
  | succ i ih =>
    intro fuel hf hi
    cases fuel with
    | zero => omega
    | succ f =>
      have hstep : ((i + 1 : Nat) : Int) - 1 = (i : Int) := by push_cast; ring
      have hd : charAt oob name (i : Int) ≠ '.' := by
        rw [charAt_nat oob name i (by omega)]
        exact getD_ne_of_not_mem name '.' NUL i hs NUL_ne_dot
      have hpos : ((i + 1 : Nat) : Int) > 0 := by omega
      simp only [get_ext_loop, hstep, hd, hpos, ne_eq, not_false_eq_true, and_self, if_true]
      exact ih f (by omega) (by omega)

theorem get_ext_no_dot_nonempty (oob : Int → Char) (name : List Char)
    (hs : '.' ∉ name) (hne : name ≠ []) : get_ext oob name = none := by
  obtain ⟨c, rest, rfl⟩ := List.exists_cons_of_ne_nil hne
  have hlen : (((c :: rest).length : Nat) : Int) - 1 = ((rest.length : Nat) : Int) := by
    simp
  have hloop := get_ext_loop_no_dot oob (c :: rest) hs rest.length (c :: rest).length
    (by simp) (by simp)
  have h0 : charAt oob (c :: rest) 0 ≠ '.' := by
    have h := charAt_nat oob (c :: rest) 0 (by simp)
    simp only [Nat.cast_zero] at h
    rw [h]
    exact getD_ne_of_not_mem (c :: rest) '.' NUL 0 hs NUL_ne_dot
  simp only [get_ext, hlen, hloop, h0, ne_eq, not_false_eq_true, and_self, if_true]

theorem get_ext_offset_after_dot (oob : Int → Char) (pre suf : List Char)
    (hs : '.' ∉ suf) (hne : suf ≠ []) :
    get_ext oob (pre ++ '.' :: suf) = some ((pre.length : Int) + 1) := by
  obtain ⟨c, rest, rfl⟩ := List.exists_cons_of_ne_nil hne
  have hlen : (((pre ++ '.' :: c :: rest).length : Nat) : Int) - 1
      = ((pre.length + 1 + rest.length : Nat) : Int) := by
    simp only [List.length_append, List.length_cons]
    push_cast; ring
  have hloop := get_ext_loop_at_dot oob pre (c :: rest) hs rest.length
    (pre ++ '.' :: c :: rest).length (by simp; omega) (by simp)
  have hnz : ¬ (((pre.length + 1 : Nat) : Int) = 0) := by omega
  simp only [get_ext, hlen, hloop, hnz, false_and, if_false]
  push_cast
  rfl

/-! ## Claims on `get_ext` -/

/-- C1, as amended.  For every name that contains a dot and does not end in one,
written `pre ++ "." ++ suf` with no dot in `suf` and `suf` non-empty, `get_ext`
returns the pointer just after that last dot, and the string found there is
`suf`. -/
theorem get_ext_after_last_dot (oob : Int → Char) (pre suf : List Char)
    (hs : '.' ∉ suf) (hne : suf ≠ []) :
    get_ext oob (pre ++ '.' :: suf) = some ((pre.length : Int) + 1)
      ∧ str_at (pre ++ '.' :: suf) ((pre.length : Int) + 1) = suf := by
  refine ⟨get_ext_offset_after_dot oob pre suf hs hne, ?_⟩
  have ht : ((pre.length : Int) + 1).toNat = pre.length + 1 := by omega
  simp only [str_at, ht]
  rw [List.drop_append_eq_append_drop]
  simp

/-- Witness of C1 as amended, at the name "a.tar.gz". -/
theorem get_ext_after_last_dot_witness :
    get_ext (fun _ => NUL) ("a.tar".toList ++ '.' :: "gz".toList)
        = some (("a.tar".toList.length : Int) + 1)
      ∧ str_at ("a.tar".toList ++ '.' :: "gz".toList) (("a.tar".toList.length : Int) + 1)
        = "gz".toList :=
  get_ext_after_last_dot (fun _ => NUL) "a.tar".toList "gz".toList (by decide) (by decide)

/-- Counterexample to C1 as stated.  The name "a.b." contains a dot, its last dot
is its last character, so the suffix after it begins at offset 4; `get_ext`
returns offset 2, the string "b.". -/
theorem get_ext_after_last_dot_counterexample :
    get_ext (fun _ => NUL) ("a.b".toList ++ '.' :: []) = some 2
      ∧ str_at ("a.b".toList ++ '.' :: []) 2 = "b.".toList
      ∧ get_ext (fun _ => NUL) ("a.b".toList ++ '.' :: [])
        ≠ some (("a.b".toList.length : Int) + 1) := by
  decide

/-- C2, as amended.  For every name whose only dot is its first character,
`get_ext` returns a pointer, never `NULL`: the name itself when the name is ".",
and otherwise the character after the leading dot. -/
theorem get_ext_dotfile (oob : Int → Char) (rest : List Char) (hs : '.' ∉ rest) :
    get_ext oob ('.' :: rest) = some (if rest = [] then 0 else 1) := by
  by_cases hr : rest = []
  · subst hr
    simp [get_ext, get_ext_loop, charAt]
  · have h := get_ext_offset_after_dot oob [] rest hs hr
    simpa [hr] using h

/-- Witness of C2 as amended, at the name ".hidden". -/
theorem get_ext_dotfile_witness :
    get_ext (fun _ => NUL) ('.' :: "hidden".toList)
      = some (if "hidden".toList = [] then 0 else 1) :=
  get_ext_dotfile (fun _ => NUL) "hidden".toList (by decide)

/-- Counterexample to C2 as stated.  The only dot of ".bashrc" is at position
zero, and `get_ext` returns offset 1, the string "bashrc", not `NULL`. -/
theorem get_ext_dotfile_counterexample :
    get_ext (fun _ => NUL) ".bashrc".toList = some 1
      ∧ str_at ".bashrc".toList 1 = "bashrc".toList
      ∧ get_ext (fun _ => NUL) ".bashrc".toList ≠ none := by
  decide

/-- C3, at its failing input.  On the empty name, which contains no dot,
`get_ext` does not return `NULL`: whatever the bytes before the string are, it
returns the pointer `name - 1`. -/
theorem get_ext_empty_name (oob : Int → Char) : get_ext oob [] = some (-1) := by
  simp [get_ext, get_ext_loop]

/-! ## Claims on `remove_ext` -/

/-- C8.  For every name that contains a dot, written `pre ++ "." ++ suf` with no
dot in `suf`, `remove_ext` leaves `pre` in the buffer, the part of the name that
precedes its last dot. -/
theorem remove_ext_before_last_dot (pre suf : List Char) (hs : '.' ∉ suf) :
    remove_ext (pre ++ '.' :: suf) = pre := by
  have hlen : (pre ++ '.' :: suf).length = pre.length + (suf.length + 1) := by simp
  have hloop := remove_ext_loop_at_dot pre suf hs (suf.length + 1)
    (pre ++ '.' :: suf).length (by simp) (Nat.le_refl _)
  rw [← hlen] at hloop
  simp only [remove_ext, hloop]
  simp

/-- Witness of C8, at the name "song.wav". -/
theorem remove_ext_before_last_dot_witness :
    remove_ext ("song".toList ++ '.' :: "wav".toList) = "song".toList :=
  remove_ext_before_last_dot "song".toList "wav".toList (by decide)

/-- C9.  For every name that contains no dot, `remove_ext` leaves the empty
string in the buffer. -/
theorem remove_ext_no_dot (name : List Char) (hs : '.' ∉ name) :
    remove_ext name = [] := by
  have hloop := remove_ext_loop_no_dot name hs name.length name.length (Nat.le_refl _)
  simp [remove_ext, hloop]

/-- Witness of C9, at the name "song". -/
theorem remove_ext_no_dot_witness : remove_ext "song".toList = [] :=
  remove_ext_no_dot "song".toList (by decide)

/-! ## The loop of `debug_get_hex_data` -/

theorem hex_groups_cons (b : Byte) (bs : List Byte) :
    hex_groups (b :: bs) = fmt_02x b ++ hex_rest bs := by
  induction bs generalizing b with
  | nil => simp [hex_groups, hex_rest, List.intercalate]
  | cons c cs ih =>
    have h := ih c
    simp only [hex_groups, List.intercalate, List.map_cons, List.intersperse_cons_cons,
      List.flatten_cons] at h ⊢
    rw [h]
    simp [hex_rest]

theorem get_max_message_length_le (debug_level : Int) (len : Nat) :
    get_max_message_length debug_level len ≤ len := by
  unfold get_max_message_length DEBUG_SHORT_HEX_LEN
  split
  · exact Nat.le_refl _
  · split <;> omega

theorem hex_loop_eq (debug_level : Int) (oob : Byte) (data : List Byte) :
    ∀ (fuel i : Nat) (str : List Char),
      get_max_message_length debug_level data.length - i ≤ fuel →
      hex_loop debug_level oob data fuel i str
        = str ++ hex_rest ((data.take (get_max_message_length debug_level data.length)).drop i) := by
  intro fuel
  induction fuel with
  | zero =>
    intro i str hf
    have hdrop : (data.take (get_max_message_length debug_level data.length)).drop i = [] := by
      apply List.drop_eq_nil_of_le
      simp only [List.length_take]
      omega
    simp [hex_loop, hdrop, hex_rest]
  | succ f ih =>
    intro i str hf
    by_cases hi : i < get_max_message_length debug_level data.length
    · have hle := get_max_message_length_le debug_level data.length
      have hlt : i < data.length := by omega
      have hlt2 : i < (data.take (get_max_message_length debug_level data.length)).length := by
        simp only [List.length_take]
        omega
      have hget : data.getD i oob = data[i] := List.getD_eq_getElem data oob hlt
      have hdrop : (data.take (get_max_message_length debug_level data.length)).drop i
          = data[i] :: (data.take (get_max_message_length debug_level data.length)).drop (i + 1) := by
        rw [List.drop_eq_getElem_cons hlt2]
        simp [List.getElem_take]
      simp only [hex_loop, hi, if_true, hget]
      rw [ih (i + 1) _ (by omega), hdrop]
      simp [hex_rest]
    · have hdrop : (data.take (get_max_message_length debug_level data.length)).drop i = [] := by
        apply List.drop_eq_nil_of_le
        simp only [List.length_take]
        omega
      simp [hex_loop, hi, hdrop, hex_rest]

theorem debug_get_hex_data_str (debug_level : Int) (oob : Byte) (level : Int)
    (data : List Byte) (hne : data ≠ []) :
    (debug_get_hex_data debug_level oob level data).str
      = hex_groups (data.take (get_max_message_length debug_level data.length))
        ++ (if level < DEBUG_FULL_HEX_THRES ∧ data.length > DEBUG_SHORT_HEX_LEN
            then ['.', '.', '.'] else []) := by
  obtain ⟨a, rest, rfl⟩ := List.exists_cons_of_ne_nil hne
  have hpos : 1 ≤ get_max_message_length debug_level (a :: rest).length := by
    unfold get_max_message_length DEBUG_SHORT_HEX_LEN
    simp only [List.length_cons]
    split
    · omega
    · split <;> omega
  obtain ⟨m, hm⟩ : ∃ m, get_max_message_length debug_level (a :: rest).length = m + 1 :=
    ⟨get_max_message_length debug_level (a :: rest).length - 1, by omega⟩
  have hloop := hex_loop_eq debug_level oob (a :: rest)
    (get_max_message_length debug_level (a :: rest).length) 1 (fmt_02x a) (by omega)
  have hbody : hex_loop debug_level oob (a :: rest)
      (get_max_message_length debug_level (a :: rest).length) 1 (fmt_02x a)
      = hex_groups ((a :: rest).take (get_max_message_length debug_level (a :: rest).length)) := by
    rw [hloop, hm, List.take_succ_cons, hex_groups_cons]
    simp
  simp only [debug_get_hex_data, List.getD_cons_zero, hbody]
  split <;> simp

theorem debug_get_hex_data_short (debug_level : Int) (oob : Byte) (level : Int)
    (data : List Byte) (hne : data ≠ []) (hlen : data.length ≤ 64) :
    (debug_get_hex_data debug_level oob level data).str = hex_groups data := by
  have hmax : get_max_message_length debug_level data.length = data.length := by
    unfold get_max_message_length DEBUG_SHORT_HEX_LEN
    split
    · rfl
    · split
      · omega
      · rfl
  have hno : ¬ (level < DEBUG_FULL_HEX_THRES ∧ data.length > DEBUG_SHORT_HEX_LEN) := by
    unfold DEBUG_SHORT_HEX_LEN
    omega
  rw [debug_get_hex_data_str debug_level oob level data hne, hmax]
  simp [hno]

theorem debug_get_hex_data_full (debug_level : Int) (oob : Byte) (level : Int)
    (data : List Byte) (hne : data ≠ []) (hd : debug_level ≥ 3) (hl : level ≥ 3) :
    (debug_get_hex_data debug_level oob level data).str = hex_groups data := by
  have hmax : get_max_message_length debug_level data.length = data.length := by
    unfold get_max_message_length DEBUG_FULL_HEX_THRES
    simp [hd]
  have hno : ¬ (level < DEBUG_FULL_HEX_THRES ∧ data.length > DEBUG_SHORT_HEX_LEN) := by
    unfold DEBUG_FULL_HEX_THRES
    omega
  rw [debug_get_hex_data_str debug_level oob level data hne, hmax]
  simp [hno]

theorem debug_get_hex_data_mixed (debug_level : Int) (oob : Byte) (level : Int)
    (data : List Byte) (hlen : data.length > 64) (hd : debug_level < 3) (hl : level ≥ 3) :
    (debug_get_hex_data debug_level oob level data).str = hex_groups (data.take 64) := by
  have hne : data ≠ [] := by
    intro h
    rw [h] at hlen
    simp at hlen
  have hmax : get_max_message_length debug_level data.length = 64 := by
    unfold get_max_message_length DEBUG_FULL_HEX_THRES DEBUG_SHORT_HEX_LEN
    have h1 : ¬ (debug_level ≥ 3) := by omega
    simp [h1, hlen]
  have hno : ¬ (level < DEBUG_FULL_HEX_THRES ∧ data.length > DEBUG_SHORT_HEX_LEN) := by
    unfold DEBUG_FULL_HEX_THRES
    omega
  rw [debug_get_hex_data_str debug_level oob level data hne, hmax]
  simp [hno]

theorem hex_groups_length (bs : List Byte) (hne : bs ≠ []) :
    (hex_groups bs).length + 1 = 3 * bs.length := by
  obtain ⟨a, rest, rfl⟩ := List.exists_cons_of_ne_nil hne
  rw [hex_groups_cons]
  have hrest : ∀ l : List Byte, (hex_rest l).length = 3 * l.length := by
    intro l
    induction l with
    | nil => rfl
    | cons c cs ih => simp [hex_rest, fmt_02x, ih]; omega
  simp [fmt_02x, hrest]
  omega

/-! ## Claims on `debug_get_hex_data` and `debug_get_hex_msg` -/

/-- C4, at its failing input.  With the global debug level 0 and the level
argument 3, a buffer of 65 bytes is not formatted whole: the text holds the
first 64 bytes only, 191 characters where the 65 groups take 194, although 195
bytes were allocated for them. -/
theorem debug_get_hex_data_level_mismatch :
    (debug_get_hex_data 0 0 3 (List.replicate 65 0)).str = hex_groups (List.replicate 64 0)
      ∧ (debug_get_hex_data 0 0 3 (List.replicate 65 0)).str ≠ hex_groups (List.replicate 65 0)
      ∧ (debug_get_hex_data 0 0 3 (List.replicate 65 0)).str.length = 191
      ∧ (hex_groups (List.replicate 65 0)).length = 194
      ∧ (debug_get_hex_data 0 0 3 (List.replicate 65 0)).size = 195 := by
  have h := debug_get_hex_data_mixed 0 0 3 (List.replicate 65 0) (by simp) (by decide)
    (by decide)
  have ht : (List.replicate 65 (0 : Byte)).take 64 = List.replicate 64 0 := by
    simp [List.take_replicate]
  rw [ht] at h
  have h64 := hex_groups_length (List.replicate 64 (0 : Byte)) (by simp)
  have h65 := hex_groups_length (List.replicate 65 (0 : Byte)) (by simp)
  simp only [List.length_replicate] at h64 h65
  refine ⟨h, ?_, ?_, ?_, ?_⟩
  · rw [h]
    intro he
    have hl := congrArg List.length he
    omega
  · rw [h]; omega
  · omega
  · simp [debug_get_hex_data, DEBUG_FULL_HEX_THRES]

/-- C5.  For every byte array of more than 64 bytes and every global debug
level below 3, `debug_get_hex_msg` writes the first 64 bytes as two-digit groups
separated by single spaces, directly followed by "...". -/
theorem debug_get_hex_msg_truncated (debug_level : Int) (oob : Byte) (B : List Byte)
    (hd : debug_level < 3) (hlen : B.length > 64) :
    (debug_get_hex_msg debug_level oob B).str = hex_groups (B.take 64) ++ ['.', '.', '.']
      ∧ (B.take 64).length = 64 := by
  have hne : B ≠ [] := by
    intro h
    rw [h] at hlen
    simp at hlen
  have hmax : get_max_message_length debug_level B.length = 64 := by
    unfold get_max_message_length DEBUG_FULL_HEX_THRES DEBUG_SHORT_HEX_LEN
    have h1 : ¬ (debug_level ≥ 3) := by omega
    simp [h1, hlen]
  have hyes : debug_level < DEBUG_FULL_HEX_THRES ∧ B.length > DEBUG_SHORT_HEX_LEN := by
    unfold DEBUG_FULL_HEX_THRES DEBUG_SHORT_HEX_LEN
    exact ⟨hd, hlen⟩
  constructor
  · unfold debug_get_hex_msg
    rw [debug_get_hex_data_str debug_level oob debug_level B hne, hmax]
    simp [hyes]
  · simp only [List.length_take]
    omega

/-- Witness of C5, at a buffer of 100 bytes and the global debug level 0. -/
theorem debug_get_hex_msg_truncated_witness :
    (debug_get_hex_msg 0 0 (List.replicate 100 0xAB)).str
        = hex_groups ((List.replicate 100 0xAB).take 64) ++ ['.', '.', '.']
      ∧ ((List.replicate 100 (0xAB : Byte)).take 64).length = 64 :=
  debug_get_hex_msg_truncated 0 0 (List.replicate 100 0xAB) (by decide) (by simp)

/-- C6, at its failing input.  On the empty buffer, at every level, the code
asks `malloc` for 0 bytes, reads the byte at `data[0]`, which is outside the
buffer, and writes its two digits: the text is not the empty list of groups. -/
theorem debug_get_hex_data_empty (debug_level : Int) (oob : Byte) (level : Int) :
    (debug_get_hex_data debug_level oob level []).str = fmt_02x oob
      ∧ (debug_get_hex_data debug_level oob level []).str ≠ hex_groups []
      ∧ (debug_get_hex_data debug_level oob level []).size = 0 := by
  have hmax : get_max_message_length debug_level 0 = 0 := by
    unfold get_max_message_length DEBUG_SHORT_HEX_LEN
    split <;> simp
  have hstr : (debug_get_hex_data debug_level oob level []).str = fmt_02x oob := by
    simp [debug_get_hex_data, hmax, hex_loop, DEBUG_SHORT_HEX_LEN]
  refine ⟨hstr, ?_, ?_⟩
  · rw [hstr]
    simp [fmt_02x, hex_groups, List.intercalate]
  · simp only [debug_get_hex_data, List.length_nil, DEBUG_SHORT_HEX_LEN]
    split <;> simp

/-! ## Claims on `chain_path` -/

/-- C7, as amended.  When the join fits in `PATH_MAX - 1` characters,
`chain_path` returns it whole: "/" followed by the child for the parent "/",
and parent, "/", child for every other parent. -/
theorem chain_path_join (PATH_MAX : Nat) (P C : List Char) :
    (('/' :: C).length ≤ PATH_MAX - 1 → chain_path PATH_MAX ['/'] C = '/' :: C)
      ∧ (P ≠ ['/'] → (P ++ '/' :: C).length ≤ PATH_MAX - 1 →
          chain_path PATH_MAX P C = P ++ '/' :: C) := by
  constructor
  · intro h
    simp only [chain_path, if_true, snprintf]
    exact List.take_of_length_le h
  · intro hP h
    simp only [chain_path, hP, if_false, snprintf]
    exact List.take_of_length_le h

/-- Witness of C7 as amended, at `PATH_MAX = 4096` and the two joins of the
specification. -/
theorem chain_path_join_witness :
    chain_path 4096 ['/'] "foo".toList = '/' :: "foo".toList
      ∧ chain_path 4096 "/a/b".toList "c".toList = "/a/b".toList ++ '/' :: "c".toList :=
  ⟨(chain_path_join 4096 [] "foo".toList).1 (by decide),
   (chain_path_join 4096 "/a/b".toList "c".toList).2 (by decide) (by decide)⟩

/-- Counterexample to C7 as stated.  With `PATH_MAX = 4096`, the parent "/" and a
child of 4096 characters, the join has 4097 characters and `chain_path` returns
its first 4095 only. -/
theorem chain_path_join_counterexample :
    (chain_path 4096 ['/'] (List.replicate 4096 'a')).length = 4095
      ∧ chain_path 4096 ['/'] (List.replicate 4096 'a') ≠ '/' :: List.replicate 4096 'a' := by
  have hlen : (chain_path 4096 ['/'] (List.replicate 4096 'a')).length = 4095 := by
    simp only [chain_path, snprintf, if_true, List.length_take, List.length_cons,
      List.length_replicate]
    omega
  refine ⟨hlen, ?_⟩
  intro he
  have hl := congrArg List.length he
  rw [hlen] at hl
  simp only [List.length_cons, List.length_replicate] at hl
  omega

/-! ## Decimal output -/

theorem digitChar_isDigit : ∀ m : Nat, m < 10 → (Nat.digitChar m).isDigit = true := by
  decide

theorem digitChar_value : ∀ m : Nat, m < 10 → (Nat.digitChar m).toNat - 48 = m := by
  decide

theorem dec_digits_acc (fuel : Nat) :
    ∀ (n : Nat) (acc : List Char), dec_digits fuel n acc = dec_digits fuel n [] ++ acc := by
  induction fuel with
  | zero => intro n acc; simp [dec_digits]
  | succ f ih =>
    intro n acc
    by_cases h : n < 10
    · simp [dec_digits, h]
    · simp only [dec_digits, h, if_false]
      rw [ih (n / 10) (Nat.digitChar (n % 10) :: acc), ih (n / 10) [Nat.digitChar (n % 10)]]
      simp

theorem dec_digits_isDigit (fuel : Nat) :
    ∀ (n : Nat) (acc : List Char), (∀ c ∈ acc, c.isDigit = true) →
      ∀ c ∈ dec_digits fuel n acc, c.isDigit = true := by
  induction fuel with
  | zero => intro n acc hacc; simpa [dec_digits] using hacc
  | succ f ih =>
    intro n acc hacc
    by_cases h : n < 10
    · simp only [dec_digits, h, if_true]
      intro c hc
      rcases List.mem_cons.mp hc with rfl | hc
      · exact digitChar_isDigit n h
      · exact hacc c hc
    · simp only [dec_digits, h, if_false]
      apply ih
      intro c hc
      rcases List.mem_cons.mp hc with rfl | hc
      · exact digitChar_isDigit (n % 10) (Nat.mod_lt n (by decide))
      · exact hacc c hc

theorem dec_digits_length (fuel : Nat) :
    ∀ (n k : Nat) (acc : List Char), n < 10 ^ k → 1 ≤ k →
      (dec_digits fuel n acc).length ≤ acc.length + k := by
  induction fuel with
  | zero => intro n k acc _ _; simp [dec_digits]
  | succ f ih =>
    intro n k acc hn hk
    by_cases h : n < 10
    · simp only [dec_digits, h, if_true, List.length_cons]
      omega
    · simp only [dec_digits, h, if_false]
      obtain ⟨k1, rfl⟩ : ∃ k1, k = k1 + 1 := ⟨k - 1, by omega⟩
      have hk1 : 1 ≤ k1 := by
        rcases Nat.eq_zero_or_pos k1 with h0 | h0
        · subst h0
          simp at hn
          omega
        · exact h0
      have hdiv : n / 10 < 10 ^ k1 := by
        apply Nat.div_lt_of_lt_mul
        rw [Nat.pow_succ, Nat.mul_comm] at hn
        exact hn
      have := ih (n / 10) k1 (Nat.digitChar (n % 10) :: acc) hdiv hk1
      simp only [List.length_cons] at this
      omega

theorem dec_digits_ne_nil (fuel : Nat) (n : Nat) : dec_digits (fuel + 1) n [] ≠ [] := by
  by_cases h : n < 10
  · simp [dec_digits, h]
  · simp only [dec_digits, h, if_false]
    rw [dec_digits_acc]
    simp

theorem dec_value_snoc (s : List Char) (c : Char) :
    dec_value (s ++ [c]) = dec_value s * 10 + (c.toNat - 48) := by
  simp [dec_value, List.foldl_append]

theorem dec_value_dec_digits (n : Nat) :
    ∀ fuel : Nat, n < fuel → dec_value (dec_digits fuel n []) = n := by
  induction n using Nat.strong_induction_on with
  | _ n ih =>
    intro fuel hf
    obtain ⟨f, rfl⟩ : ∃ f, fuel = f + 1 := ⟨fuel - 1, by omega⟩
    by_cases h : n < 10
    · simp only [dec_digits, h, if_true]
      have := dec_value_snoc [] (Nat.digitChar n)
      simp only [List.nil_append] at this
      rw [this, digitChar_value n h]
      simp [dec_value]
    · simp only [dec_digits, h, if_false]
      rw [dec_digits_acc, dec_value_snoc, ih (n / 10) (by omega) f (by omega),
        digitChar_value (n % 10) (Nat.mod_lt n (by decide))]
      omega

theorem fmt_u_isDigit (n : Nat) : ∀ c ∈ fmt_u n, c.isDigit = true :=
  dec_digits_isDigit (n + 1) n [] (by simp)

theorem fmt_u_length (n k : Nat) (hn : n < 10 ^ k) (hk : 1 ≤ k) : (fmt_u n).length ≤ k := by
  have := dec_digits_length (n + 1) n k [] hn hk
  simpa [fmt_u] using this

theorem fmt_u_ne_nil (n : Nat) : fmt_u n ≠ [] :=
  dec_digits_ne_nil n n

theorem fmt_u_value (n : Nat) : dec_value (fmt_u n) = n :=
  dec_value_dec_digits n (n + 1) (Nat.lt_succ_self n)

theorem fmt_2f_number_text (num den : Nat) : number_text (fmt_2f num den) := by
  constructor
  · simp [fmt_2f]
  · intro c hc
    simp only [fmt_2f, List.mem_append, List.mem_cons, List.mem_singleton,
      List.not_mem_nil, or_false] at hc
    rcases hc with hc | rfl | rfl | rfl
    · exact Or.inl (fmt_u_isDigit _ c hc)
    · exact Or.inr rfl
    · exact Or.inl (digitChar_isDigit _ (by omega))
    · exact Or.inl (digitChar_isDigit _ (Nat.mod_lt _ (by decide)))

theorem fmt_2f_length (num den : Nat) (h : (100 * num / den + 1) / 100 < 10 ^ 7) :
    (fmt_2f num den).length ≤ 10 := by
  have hle : ∀ x : Nat, x ≤ 100 * num / den + 1 → (fmt_u (x / 100)).length ≤ 7 := by
    intro x hx
    apply fmt_u_length _ 7 _ (by decide)
    have : x / 100 ≤ (100 * num / den + 1) / 100 := Nat.div_le_div_right hx
    omega
  simp only [fmt_2f, List.length_append, List.length_cons, List.length_nil]
  split
  · have := hle (100 * num / den + 1) (Nat.le_refl _)
    omega
  · have := hle (100 * num / den) (Nat.le_succ _)
    omega

theorem snprintf_fits (size : Nat) (s : List Char) (h : s.length ≤ size - 1) :
    snprintf size s = s :=
  List.take_of_length_le h

theorem unit_gap_length (with_space : Bool) : (unit_gap with_space).length ≤ 1 := by
  cases with_space <;> simp [unit_gap]

theorem fmt_d_as_int32 (n : Nat) (hn : n < 2 ^ 31) : fmt_d (as_int32 n) = fmt_u n := by
  have hmod : n % 2 ^ 32 = n := Nat.mod_eq_of_lt (by omega)
  have hlt : n % 2 ^ 32 < 2 ^ 31 := by omega
  have hnn : ¬ ((n : Int) < 0) := by omega
  simp only [as_int32, hmod, hn, if_true, fmt_d, hnn, if_false, Int.toNat_ofNat]

/-! ## Claims on `get_human_size` -/

/-- C10.  For every 32-bit byte count `n` and both values of the flag,
`get_human_size` is a number, then one space if the flag is set and nothing
otherwise, then the unit of the range of `n`: below 1024 the number is the
decimal integer `n`, digits only, and the unit is "B"; from 1024 the number is
made of digits and a decimal point and the unit is "KiB" below 1024², "MiB"
below 1024³ and "GiB" from there on. -/
theorem get_human_size_unit (n : Nat) (with_space : Bool) (hn : n < 2 ^ 32) :
    (n < 1024 →
        get_human_size n with_space = fmt_u n ++ unit_gap with_space ++ ['B']
          ∧ (∀ c ∈ fmt_u n, c.isDigit = true) ∧ dec_value (fmt_u n) = n)
      ∧ (1024 ≤ n → n < 1024 ^ 2 →
        get_human_size n with_space
            = fmt_2f n 1024 ++ unit_gap with_space ++ ['K', 'i', 'B']
          ∧ number_text (fmt_2f n 1024))
      ∧ (1024 ^ 2 ≤ n → n < 1024 ^ 3 →
        get_human_size n with_space
            = fmt_2f n (1024 ^ 2) ++ unit_gap with_space ++ ['M', 'i', 'B']
          ∧ number_text (fmt_2f n (1024 ^ 2)))
      ∧ (1024 ^ 3 ≤ n →
        get_human_size n with_space
            = fmt_2f n (1024 ^ 3) ++ unit_gap with_space ++ ['G', 'i', 'B']
          ∧ number_text (fmt_2f n (1024 ^ 3))) := by
  have hgap := unit_gap_length with_space
  have hgapdef : (if with_space = true then [SPACE] else []) = unit_gap with_space := rfl
  refine ⟨?_, ?_, ?_, ?_⟩
  · intro h
    refine ⟨?_, fmt_u_isDigit n, fmt_u_value n⟩
    have hlen := fmt_u_length n 4 (by omega) (by decide)
    simp only [get_human_size, KIB, h, if_true, hgapdef, fmt_d_as_int32 n (by omega)]
    apply snprintf_fits
    simp only [List.length_append, List.length_cons, List.length_nil, LABEL_MAX]
    omega
  · intro h1 h2
    refine ⟨?_, fmt_2f_number_text n 1024⟩
    have hlen := fmt_2f_length n 1024 (by omega)
    have c1 : ¬ (n < 1024) := by omega
    have c2 : n < 1024 * 1024 := by omega
    simp only [get_human_size, KIB, c1, c2, if_true, if_false, hgapdef]
    apply snprintf_fits
    simp only [List.length_append, List.length_cons, List.length_nil, LABEL_MAX]
    omega
  · intro h1 h2
    refine ⟨?_, fmt_2f_number_text n (1024 ^ 2)⟩
    have hlen := fmt_2f_length n (1024 * 1024) (by omega)
    have c1 : ¬ (n < 1024) := by omega
    have c2 : ¬ (n < 1024 * 1024) := by omega
    have c3 : n < 1024 * 1024 * 1024 := by omega
    have e : (1024 : Nat) ^ 2 = 1024 * 1024 := by norm_num
    rw [e]
    simp only [get_human_size, KIB, c1, c2, c3, if_true, if_false, hgapdef]
    apply snprintf_fits
    simp only [List.length_append, List.length_cons, List.length_nil, LABEL_MAX]
    omega
  · intro h1
    refine ⟨?_, fmt_2f_number_text n (1024 ^ 3)⟩
    have hlen := fmt_2f_length n (1024 * 1024 * 1024) (by omega)
    have c1 : ¬ (n < 1024) := by omega
    have c2 : ¬ (n < 1024 * 1024) := by omega
    have c3 : ¬ (n < 1024 * 1024 * 1024) := by omega
    have e : (1024 : Nat) ^ 3 = 1024 * 1024 * 1024 := by norm_num
    rw [e]
    simp only [get_human_size, KIB, c1, c2, c3, if_false, hgapdef]
    apply snprintf_fits
    simp only [List.length_append, List.length_cons, List.length_nil, LABEL_MAX]
    omega

/-- Witness of C10, at one byte count of each range with the flag set and
unset. -/
theorem get_human_size_unit_witness :
    get_human_size 1023 true = fmt_u 1023 ++ unit_gap true ++ ['B']
      ∧ get_human_size 1024 false = fmt_2f 1024 1024 ++ unit_gap false ++ ['K', 'i', 'B']
      ∧ get_human_size 1048576 true
          = fmt_2f 1048576 (1024 ^ 2) ++ unit_gap true ++ ['M', 'i', 'B']
      ∧ get_human_size 4294967295 false
          = fmt_2f 4294967295 (1024 ^ 3) ++ unit_gap false ++ ['G', 'i', 'B'] :=
  ⟨((get_human_size_unit 1023 true (by decide)).1 (by decide)).1,
   ((get_human_size_unit 1024 false (by decide)).2.1 (by decide) (by decide)).1,
   ((get_human_size_unit 1048576 true (by decide)).2.2.1 (by decide) (by decide)).1,
   ((get_human_size_unit 4294967295 false (by decide)).2.2.2 (by decide)).1⟩

/-! ## The number printed by `get_human_size` -/

theorem fmt_2f_round (num den : Nat) (hden : 0 < den) :
    ∃ h : Nat, fmt_2f num den
        = fmt_u (h / 100) ++ ['.', Nat.digitChar (h % 100 / 10), Nat.digitChar (h % 10)]
      ∧ 2 * (h * den) ≤ den + 200 * num ∧ 200 * num ≤ den + 2 * (h * den) := by
  have hdm : den * (100 * num / den) + 100 * num % den = 100 * num :=
    Nat.div_add_mod (100 * num) den
  have hr : 100 * num % den < den := Nat.mod_lt _ hden
  by_cases hc : 2 * (100 * num % den) > den
      ∨ (2 * (100 * num % den) = den ∧ 100 * num / den % 2 = 1)
  · refine ⟨100 * num / den + 1, ?_, ?_, ?_⟩
    · simp only [fmt_2f, hc, if_true]
    · have e : (100 * num / den + 1) * den = den * (100 * num / den) + den := by ring
      rw [e]
      rcases hc with hc | ⟨hc, _⟩ <;> omega
    · have e : (100 * num / den + 1) * den = den * (100 * num / den) + den := by ring
      rw [e]
      omega
  · refine ⟨100 * num / den, ?_, ?_, ?_⟩
    · simp only [fmt_2f, hc, if_false]
    · have e : 100 * num / den * den = den * (100 * num / den) := by ring
      rw [e]
      omega
    · have e : 100 * num / den * den = den * (100 * num / den) := by ring
      rw [e]
      have hns : ¬ (2 * (100 * num % den) > den) := fun h => hc (Or.inl h)
      omega

theorem hundredths_digits (h : Nat) :
    hundredths (fmt_u (h / 100)) (Nat.digitChar (h % 100 / 10)) (Nat.digitChar (h % 10)) = h := by
  have h1 := digitChar_value (h % 100 / 10) (by omega)
  have h2 := digitChar_value (h % 10) (by omega)
  simp only [hundredths, fmt_u_value, h1, h2]
  omega

theorem get_human_size_large (n : Nat) (with_space : Bool) (hn : n < 2 ^ 32)
    (h1024 : 1024 ≤ n) :
    get_human_size n with_space
      = fmt_2f n (unit_divisor n) ++ unit_gap with_space ++ unit_name n := by
  have hgap := unit_gap_length with_space
  have hgapdef : (if with_space = true then [SPACE] else []) = unit_gap with_space := rfl
  have c1 : ¬ (n < 1024) := by omega
  have e2 : (1024 : Nat) ^ 2 = 1024 * 1024 := by norm_num
  have e3 : (1024 : Nat) ^ 3 = 1024 * 1024 * 1024 := by norm_num
  by_cases c2 : n < 1024 * 1024
  · have hlen := fmt_2f_length n 1024 (by omega)
    simp only [get_human_size, unit_divisor, unit_name, e2, KIB, c1, c2, if_true, if_false,
      hgapdef]
    apply snprintf_fits
    simp only [List.length_append, List.length_cons, List.length_nil, LABEL_MAX]
    omega
  · by_cases c3 : n < 1024 * 1024 * 1024
    · have hlen := fmt_2f_length n (1024 * 1024) (by omega)
      simp only [get_human_size, unit_divisor, unit_name, e2, e3, KIB, c1, c2, c3, if_true,
        if_false, hgapdef]
      apply snprintf_fits
      simp only [List.length_append, List.length_cons, List.length_nil, LABEL_MAX]
      omega
    · have hlen := fmt_2f_length n (1024 * 1024 * 1024) (by omega)
      simp only [get_human_size, unit_divisor, unit_name, e2, e3, KIB, c1, c2, c3, if_false,
        hgapdef]
      apply snprintf_fits
      simp only [List.length_append, List.length_cons, List.length_nil, LABEL_MAX]
      omega

theorem unit_divisor_pos (n : Nat) : 0 < unit_divisor n := by
  unfold unit_divisor
  split
  · decide
  · split <;> decide

/-- C11.  For every 32-bit byte count `n` from 1024 on, `get_human_size` is an
integer part of decimal digits, a decimal point, exactly two decimal digits, the
gap and the unit; and the number so written, in hundredths, is within 0.005 of
the exact quotient of `n` by the divisor of its unit. -/
theorem get_human_size_number (n : Nat) (with_space : Bool) (hn : n < 2 ^ 32)
    (h1024 : 1024 ≤ n) :
    ∃ (ip : List Char) (d1 d2 : Char),
      get_human_size n with_space
          = ip ++ '.' :: d1 :: d2 :: (unit_gap with_space ++ unit_name n)
        ∧ ip ≠ [] ∧ (∀ c ∈ ip, c.isDigit = true) ∧ d1.isDigit = true ∧ d2.isDigit = true
        ∧ |(hundredths ip d1 d2 : ℚ) / 100 - (n : ℚ) / (unit_divisor n : ℚ)| ≤ 5 / 1000 := by
  obtain ⟨h, hfmt, hle1, hle2⟩ := fmt_2f_round n (unit_divisor n) (unit_divisor_pos n)
  refine ⟨fmt_u (h / 100), Nat.digitChar (h % 100 / 10), Nat.digitChar (h % 10), ?_,
    fmt_u_ne_nil _, fmt_u_isDigit _, digitChar_isDigit _ (by omega),
    digitChar_isDigit _ (by omega), ?_⟩
  · rw [get_human_size_large n with_space hn h1024, hfmt]
    simp
  · rw [hundredths_digits]
    have hpos : (0 : ℚ) < (unit_divisor n : ℚ) := by
      exact_mod_cast unit_divisor_pos n
    have q1 : 2 * ((h : ℚ) * (unit_divisor n : ℚ)) ≤ (unit_divisor n : ℚ) + 200 * (n : ℚ) := by
      exact_mod_cast hle1
    have q2 : 200 * (n : ℚ) ≤ (unit_divisor n : ℚ) + 2 * ((h : ℚ) * (unit_divisor n : ℚ)) := by
      exact_mod_cast hle2
    rw [abs_le]
    constructor
    · have : (n : ℚ) / (unit_divisor n : ℚ) ≤ (h : ℚ) / 100 + 5 / 1000 := by
        rw [div_le_iff₀ hpos]
        linarith
      linarith
    · have : (h : ℚ) / 100 - 5 / 1000 ≤ (n : ℚ) / (unit_divisor n : ℚ) := by
        rw [le_div_iff₀ hpos]
        linarith
      linarith

/-- Witness of C11, at 1024 bytes without the space and 1048576 bytes with it,
which print as "1.00KiB" and "1.00 MiB". -/
theorem get_human_size_number_witness :
    (∃ (ip : List Char) (d1 d2 : Char),
      get_human_size 1024 false
          = ip ++ '.' :: d1 :: d2 :: (unit_gap false ++ unit_name 1024)
        ∧ ip ≠ [] ∧ (∀ c ∈ ip, c.isDigit = true) ∧ d1.isDigit = true ∧ d2.isDigit = true
        ∧ |(hundredths ip d1 d2 : ℚ) / 100 - ((1024 : Nat) : ℚ) / (unit_divisor 1024 : ℚ)|
            ≤ 5 / 1000)
      ∧ get_human_size 1024 false = "1.00KiB".toList
      ∧ get_human_size 1048576 true = "1.00 MiB".toList :=
  ⟨get_human_size_number 1024 false (by decide) (by decide), by decide, by decide⟩

/-! ## Claims on `get_item_index` and `free_item_iterator` -/

theorem int_value_digits (s : List Char) (hs : ∀ c ∈ s, c.isDigit = true) :
    int_value s = (dec_value s : Int) := by
  unfold int_value
  split
  · rename_i t
    have h := hs '-' (List.mem_cons_self _ _)
    exact absurd h (by decide)
  · rfl

theorem int_value_fmt_d (v : Int) : int_value (fmt_d v) = v := by
  unfold fmt_d
  split
  · rename_i hneg
    show - (dec_value (fmt_u (-v).toNat) : Int) = v
    rw [fmt_u_value]
    omega
  · rename_i hnn
    rw [int_value_digits _ (fmt_u_isDigit _), fmt_u_value]
    omega

theorem fmt_d_length (v : Int) (hlo : -2 ^ 31 ≤ v) (hhi : v < 2 ^ 31) :
    (fmt_d v).length ≤ 11 := by
  unfold fmt_d
  split
  · have h := fmt_u_length (-v).toNat 10 (by omega) (by decide)
    simp only [List.length_cons]
    omega
  · have h := fmt_u_length v.toNat 10 (by omega) (by decide)
    omega

/-- C12.  For every item whose index is a signed 32-bit value, `get_item_index`
is a copy of the name when the type is directory, and for every other type the
whole decimal text of the index, minus sign included: it reads back as the
index and is never cut by the `LABEL_MAX` bound. -/
theorem get_item_index_text (it : item) (hlo : -2 ^ 31 ≤ it.index)
    (hhi : it.index < 2 ^ 31) :
    (it.type = ELEKTROID_DIR → get_item_index it = it.name)
      ∧ (it.type ≠ ELEKTROID_DIR →
          get_item_index it = fmt_d it.index
            ∧ int_value (get_item_index it) = it.index
            ∧ (get_item_index it).length ≤ 11) := by
  constructor
  · intro h
    simp only [get_item_index, h, if_true, get_item_name]
  · intro h
    have hlen := fmt_d_length it.index hlo hhi
    have heq : get_item_index it = fmt_d it.index := by
      simp only [get_item_index, h, if_false]
      apply snprintf_fits
      simp only [LABEL_MAX]
      omega
    rw [heq]
    exact ⟨rfl, int_value_fmt_d it.index, hlen⟩

/-- Witness of C12, at a directory and at a file whose index is the least
signed 32-bit value. -/
theorem get_item_index_text_witness :
    get_item_index { name := "dir".toList, size := 0, index := 7, type := ELEKTROID_DIR }
        = "dir".toList
      ∧ get_item_index
          { name := "x".toList, size := 0, index := -2147483648, type := ELEKTROID_FILE }
        = fmt_d (-2147483648) :=
  ⟨(get_item_index_text
      { name := "dir".toList, size := 0, index := 7, type := ELEKTROID_DIR }
      (by decide) (by decide)).1 rfl,
   ((get_item_index_text
      { name := "x".toList, size := 0, index := -2147483648, type := ELEKTROID_FILE }
      (by decide) (by decide)).2 (by decide)).1⟩

/-- C13.  For every iterator, `free_item_iterator` makes exactly one call when
the release slot is set, the call of that slot on the opaque state, and makes no
call when the slot is unset; its body leaves the iterator as it was. -/
theorem free_item_iterator_calls {Fn D : Type} (iter : item_iterator Fn D) :
    (∀ f : Fn, iter.free = some f →
        (free_item_iterator iter).2 = [(f, iter.data)] ∧ (free_item_iterator iter).1 = iter)
      ∧ (iter.free = none → free_item_iterator iter = (iter, [])) := by
  constructor
  · intro f h
    simp [free_item_iterator, h]
  · intro h
    simp [free_item_iterator, h]

/-- Witness of C13, at an iterator whose release slot holds the function 1 and
whose opaque state is 42, and at the same iterator with the slot unset. -/
theorem free_item_iterator_calls_witness :
    (free_item_iterator
        ({ next := some 0, free := some 1, copy := none, data := 42,
           item := { name := [], size := 0, index := 0, type := ELEKTROID_NONE } } :
          item_iterator Nat Nat)).2 = [(1, 42)]
      ∧ (free_item_iterator
        ({ next := some 0, free := none, copy := none, data := 42,
           item := { name := [], size := 0, index := 0, type := ELEKTROID_NONE } } :
          item_iterator Nat Nat)).2 = [] :=
  ⟨((free_item_iterator_calls
      ({ next := some 0, free := some 1, copy := none, data := 42,
         item := { name := [], size := 0, index := 0, type := ELEKTROID_NONE } } :
        item_iterator Nat Nat)).1 1 rfl).1,
   congrArg Prod.snd ((free_item_iterator_calls
      ({ next := some 0, free := none, copy := none, data := 42,
         item := { name := [], size := 0, index := 0, type := ELEKTROID_NONE } } :
        item_iterator Nat Nat)).2 rfl)⟩

/-! ## Claims on `load_file` and `save_file` -/

theorem load_file_short_read (junk : Byte) (f : OpenFile) (array : List Byte)
    (hseek : f.fseek_errno = none) (hshort : (f.fread.length : Int) ≠ f.ftell) :
    (load_file junk (Except.ok f) array).1 = - f.errno := by
  simp only [load_file, hseek, hshort, if_false]

theorem g_byte_array_set_size_length (junk : Byte) (array : List Byte) (n : Nat) :
    (g_byte_array_set_size junk array n).length = n := by
  simp only [g_byte_array_set_size, List.length_take, List.length_append,
    List.length_replicate]
  omega

theorem fs_load_file_small (junk : Byte) (e : Int) (fs : FileSystem) (F : List Char)
    (B array : List Byte) (hF : fs F = some B) (hlen : B.length < 2 ^ 32) :
    fs_load_file junk e fs F array = some (0, B) := by
  have hmod : ((B.length : Int) % 2 ^ 32).toNat = B.length := by omega
  have hfits : ¬ (B.length < B.length) := Nat.lt_irrefl _
  simp only [fs_load_file, hF, load_file_overruns, hmod, hfits, decide_False,
    Bool.false_eq_true, if_false, load_file, g_byte_array_set_size_length, if_true]
  rw [List.take_left']
  rfl

theorem fs_load_file_large (junk : Byte) (e : Int) (fs : FileSystem) (F : List Char)
    (B array : List Byte) (hF : fs F = some B) (hlen : 2 ^ 32 ≤ B.length) :
    fs_load_file junk e fs F array = none := by
  have hmod : ((B.length : Int) % 2 ^ 32).toNat < B.length := by omega
  simp only [fs_load_file, hF, load_file_overruns, hmod, decide_True, if_true]

theorem fs_save_file_all (fs : FileSystem) (P : List Char) (array : List Byte) :
    (fs_save_file fs P array).1 = 0 ∧ (fs_save_file fs P array).2 P = some array := by
  simp [fs_save_file, save_file]

theorem save_file_unflushed (w : WriteStream) (array : List Byte)
    (hw : w.fwrite = array.length) :
    save_file (Except.ok w) array = (0, some (array.take w.stored)) := by
  have hmin : min w.stored array.length ≤ array.length := Nat.min_le_right _ _
  simp only [save_file, hw, Nat.min_self, if_true]
  rw [← List.take_take]
  simp

/-- C14, at its failing input.  The file opens, `fseek` succeeds, `ftell`
reports 4096 bytes and `fread` delivers 2 of them, at the end of the file, which
leaves `errno` at 0: `load_file` returns `-errno`, that is 0. -/
theorem load_file_short_read_status :
    ([1, 2] : List Byte).length < 4096
      ∧ (load_file 0
          (Except.ok { fseek_errno := none, ftell := 4096, fread := [1, 2], errno := 0 })
          []).1 = 0 := by
  refine ⟨by decide, ?_⟩
  rw [load_file_short_read 0 _ [] rfl (by decide)]
  rfl

/-- C15, at its failing input.  Over the model file system, for a file of
`2 ^ 32` bytes, `g_byte_array_set_size` gives the array the length 0, the size
modulo `2 ^ 32`, and `fread` is then asked to store the `2 ^ 32` bytes into it:
the store runs past the end of the array and `load_file` has no defined result,
so neither a status 0 nor a copy of the file follows. -/
theorem fs_load_file_overrun (junk : Byte) (e : Int) (array : List Byte) :
    (g_byte_array_set_size junk array
        ((((List.replicate (2 ^ 32) (0 : Byte)).length : Nat) : Int) % 2 ^ 32).toNat).length = 0
      ∧ load_file_overruns
          { fseek_errno := none, ftell := ((List.replicate (2 ^ 32) (0 : Byte)).length : Int),
            fread := List.replicate (2 ^ 32) 0, errno := e } = true
      ∧ fs_load_file junk e (fun _ => some (List.replicate (2 ^ 32) 0)) "in".toList array
          = none := by
  have hmod : ((((2 : Nat) ^ 32 : Nat) : Int) % 2 ^ 32).toNat = 0 := by norm_num
  refine ⟨?_, ?_, ?_⟩
  · rw [g_byte_array_set_size_length, List.length_replicate, hmod]
  · simp only [load_file_overruns, List.length_replicate, hmod]
    decide
  · exact fs_load_file_large junk e _ "in".toList (List.replicate (2 ^ 32) 0) array rfl
      (by simp only [List.length_replicate]; exact Nat.le_refl _)

/-! ## The buffer of `debug_get_hex_data` -/

/-- C16, at its failing input.  With the global debug level 3 and the level
argument 0, a buffer of 65 bytes gets an allocation of 195 bytes, sized for 64
groups and the ellipsis, while the loop formats all 65 bytes: the text has 197
characters, 198 bytes with its NUL. -/
theorem debug_get_hex_data_overrun :
    (debug_get_hex_data 3 0 0 (List.replicate 65 0)).size = 195
      ∧ (debug_get_hex_data 3 0 0 (List.replicate 65 0)).str.length = 197
      ∧ ¬ ((debug_get_hex_data 3 0 0 (List.replicate 65 0)).str.length + 1
            ≤ (debug_get_hex_data 3 0 0 (List.replicate 65 0)).size) := by
  have hsize : (debug_get_hex_data 3 0 0 (List.replicate 65 0)).size = 195 := by
    simp [debug_get_hex_data, DEBUG_FULL_HEX_THRES, DEBUG_SHORT_HEX_LEN]
  have hmax : get_max_message_length 3 (List.replicate 65 (0 : Byte)).length = 65 := by
    simp [get_max_message_length, DEBUG_FULL_HEX_THRES]
  have hstr := debug_get_hex_data_str 3 0 0 (List.replicate 65 0) (by simp)
  have hyes : (0 : Int) < DEBUG_FULL_HEX_THRES
      ∧ (List.replicate 65 (0 : Byte)).length > DEBUG_SHORT_HEX_LEN := by
    simp [DEBUG_FULL_HEX_THRES, DEBUG_SHORT_HEX_LEN]
  rw [hmax, if_pos hyes] at hstr
  have h65 := hex_groups_length ((List.replicate 65 (0 : Byte)).take 65) (by simp)
  have hlen : (debug_get_hex_data 3 0 0 (List.replicate 65 0)).str.length = 197 := by
    rw [hstr]
    simp only [List.length_append, List.length_cons, List.length_nil]
    simp only [List.length_take, List.length_replicate] at h65
    omega
  refine ⟨hsize, hlen, ?_⟩
  rw [hsize, hlen]
  decide

/-! ## The reads of the scan of `get_ext` -/

theorem get_ext_scan_fst (oob : Int → Char) (name : List Char) :
    ∀ (fuel : Nat) (i : Int),
      (get_ext_scan oob name fuel i).1 = get_ext_loop oob name fuel i := by
  intro fuel
  induction fuel with
  | zero => intro i; rfl
  | succ f ih =>
    intro i
    by_cases hc : charAt oob name (i - 1) ≠ '.' ∧ i > 0
    · rw [get_ext_scan, get_ext_loop, if_pos hc, if_pos hc]
      exact ih (i - 1)
    · rw [get_ext_scan, get_ext_loop, if_neg hc, if_neg hc]

theorem get_ext_loop_fuel (oob : Int → Char) (name : List Char) :
    ∀ (fuel : Nat) (i : Int), i ≤ (fuel : Int) →
      get_ext_loop oob name (fuel + 1) i = get_ext_loop oob name fuel i := by
  intro fuel
  induction fuel with
  | zero =>
    intro i hi
    have hnp : ¬ (i > 0) := by omega
    simp [get_ext_loop, hnp]
  | succ f ih =>
    intro i hi
    by_cases hc : charAt oob name (i - 1) ≠ '.' ∧ i > 0
    · have hstep := ih (i - 1) (by omega)
      rw [get_ext_loop, if_pos hc, hstep]
      conv_rhs => rw [get_ext_loop, if_pos hc]
    · rw [get_ext_loop, if_neg hc]
      conv_rhs => rw [get_ext_loop, if_neg hc]

theorem get_ext_scan_agrees (oob : Int → Char) (name : List Char) :
    (get_ext_scan oob name (name.length + 1) ((name.length : Int) - 1)).1
      = get_ext_loop oob name name.length ((name.length : Int) - 1) := by
  rw [get_ext_scan_fst, get_ext_loop_fuel oob name name.length _ (by omega)]

theorem get_ext_scan_reaches_before_start (oob : Int → Char) (name : List Char)
    (hs : '.' ∉ name) :
    ∀ (i fuel : Nat), i < fuel → i ≤ name.length →
      (-1 : Int) ∈ (get_ext_scan oob name fuel (i : Int)).2 := by
  intro i
  induction i with
  | zero =>
    intro fuel hf _
    obtain ⟨f, rfl⟩ : ∃ f, fuel = f + 1 := ⟨fuel - 1, by omega⟩
    simp [get_ext_scan]
  | succ i ih =>
    intro fuel hf hi
    obtain ⟨f, rfl⟩ : ∃ f, fuel = f + 1 := ⟨fuel - 1, by omega⟩
    have hstep : ((i + 1 : Nat) : Int) - 1 = (i : Int) := by push_cast; ring
    have hd : charAt oob name (i : Int) ≠ '.' := by
      rw [charAt_nat oob name i (by omega)]
      exact getD_ne_of_not_mem name '.' NUL i hs NUL_ne_dot
    have hpos : ((i + 1 : Nat) : Int) > 0 := by omega
    simp only [get_ext_scan, hstep, hd, hpos, ne_eq, not_false_eq_true, and_self, if_true]
    exact List.mem_cons_of_mem _ (ih f (by omega) (by omega))

theorem get_ext_reads_no_dot (oob : Int → Char) (name : List Char)
    (hs : '.' ∉ name) (hne : name ≠ []) : (-1 : Int) ∈ get_ext_reads oob name := by
  obtain ⟨c, rest, rfl⟩ := List.exists_cons_of_ne_nil hne
  have hlen : (((c :: rest).length : Nat) : Int) - 1 = ((rest.length : Nat) : Int) := by
    simp
  unfold get_ext_reads
  rw [hlen]
  exact get_ext_scan_reaches_before_start oob (c :: rest) hs rest.length _
    (by simp only [List.length_cons]; omega) (by simp)

/-- C17, at its failing inputs.  On the name "a", of length 1, the scan of
`get_ext` reads offset -1, the byte before the name, and on the empty name it
reads offset -2: neither lies in the range from 0 to the length. -/
theorem get_ext_reads_before_start (oob : Int → Char) :
    get_ext_reads oob ['a'] = [-1] ∧ get_ext_reads oob [] = [-2] := by
  constructor
  · simp [get_ext_reads, get_ext_scan]
  · simp [get_ext_reads, get_ext_scan]

/-! ## `remove_ext` against `get_ext` -/

theorem remove_ext_split (pre suf : List Char) (hs : '.' ∉ suf) :
    remove_ext (pre ++ '.' :: suf) = pre := by
  have hlen : (pre ++ '.' :: suf).length = pre.length + (suf.length + 1) := by simp
  have hloop := remove_ext_loop_at_dot pre suf hs (suf.length + 1)
    (pre ++ '.' :: suf).length (by simp) (Nat.le_refl _)
  rw [← hlen] at hloop
  simp only [remove_ext, hloop]
  simp

/-- C18, as amended.  For every name that contains a dot and does not end in
one, written `pre ++ "." ++ suf` with no dot in `suf` and `suf` non-empty,
`get_ext` returns a pointer and the string left by `remove_ext`, a dot, and the
string at that pointer make up the name again. -/
theorem remove_ext_get_ext_rejoin (oob : Int → Char) (pre suf : List Char)
    (hs : '.' ∉ suf) (hne : suf ≠ []) :
    ∃ off : Int, get_ext oob (pre ++ '.' :: suf) = some off
      ∧ remove_ext (pre ++ '.' :: suf) ++ '.' :: str_at (pre ++ '.' :: suf) off
        = pre ++ '.' :: suf := by
  refine ⟨(pre.length : Int) + 1, get_ext_offset_after_dot oob pre suf hs hne, ?_⟩
  have ht : ((pre.length : Int) + 1).toNat = pre.length + 1 := by omega
  have hdrop : (pre ++ '.' :: suf).drop (pre.length + 1) = suf := by
    rw [List.drop_append_eq_append_drop]
    simp
  rw [remove_ext_split pre suf hs]
  simp only [str_at, ht, hdrop]

/-- Witness of C18 as amended, at the name "a.tar.gz". -/
theorem remove_ext_get_ext_rejoin_witness :
    ∃ off : Int, get_ext (fun _ => NUL) ("a.tar".toList ++ '.' :: "gz".toList) = some off
      ∧ remove_ext ("a.tar".toList ++ '.' :: "gz".toList)
          ++ '.' :: str_at ("a.tar".toList ++ '.' :: "gz".toList) off
        = "a.tar".toList ++ '.' :: "gz".toList :=
  remove_ext_get_ext_rejoin (fun _ => NUL) "a.tar".toList "gz".toList (by decide) (by decide)

/-- Counterexample to C18 as stated.  The name "a.b." contains a dot and
`get_ext` returns a pointer for it, at offset 2; `remove_ext` leaves "a.b", and
the two parts joined by a dot are "a.b.b.", not the name. -/
theorem remove_ext_get_ext_rejoin_counterexample :
    get_ext (fun _ => NUL) "a.b.".toList = some 2
      ∧ remove_ext "a.b.".toList = "a.b".toList
      ∧ remove_ext "a.b.".toList ++ '.' :: str_at "a.b.".toList 2 = "a.b.b.".toList
      ∧ remove_ext "a.b.".toList ++ '.' :: str_at "a.b.".toList 2 ≠ "a.b.".toList := by
  decide

/-! ## The truncation of `chain_path` -/

theorem chain_path_take (PATH_MAX : Nat) (P C : List Char) :
    chain_path PATH_MAX P C = (untruncated_join P C).take (PATH_MAX - 1) := by
  unfold chain_path untruncated_join snprintf
  split <;> rfl

/-- C19.  For every `PATH_MAX` above zero, every parent and every child, the
string `chain_path` returns has at most `PATH_MAX - 1` characters, so that it
fits the buffer of `PATH_MAX` bytes with its NUL, and begins the untruncated
join; it is the whole join exactly when the join has at most `PATH_MAX - 1`
characters. -/
theorem chain_path_truncated (PATH_MAX : Nat) (P C : List Char) (hpos : 0 < PATH_MAX) :
    (chain_path PATH_MAX P C).length ≤ PATH_MAX - 1
      ∧ (chain_path PATH_MAX P C).length + 1 ≤ PATH_MAX
      ∧ chain_path PATH_MAX P C <+: untruncated_join P C
      ∧ (chain_path PATH_MAX P C = untruncated_join P C
          ↔ (untruncated_join P C).length ≤ PATH_MAX - 1) := by
  rw [chain_path_take]
  refine ⟨?_, ?_, List.take_prefix _ _, ?_⟩
  · simp only [List.length_take]
    omega
  · simp only [List.length_take]
    omega
  · exact List.take_eq_self_iff _

/-- Witness of C19, at `PATH_MAX = 4096` and the join of "/a/b" and "c". -/
theorem chain_path_truncated_witness :
    (chain_path 4096 "/a/b".toList "c".toList).length ≤ 4096 - 1
      ∧ (chain_path 4096 "/a/b".toList "c".toList).length + 1 ≤ 4096
      ∧ chain_path 4096 "/a/b".toList "c".toList <+: untruncated_join "/a/b".toList "c".toList
      ∧ (chain_path 4096 "/a/b".toList "c".toList = untruncated_join "/a/b".toList "c".toList
          ↔ (untruncated_join "/a/b".toList "c".toList).length ≤ 4096 - 1) :=
  chain_path_truncated 4096 "/a/b".toList "c".toList (by decide)

end Elektroid
